import Mathlib

/-!
Verification of the scene-catalog manager (scene_mgr.py).

The development shallowly embeds the pure content of the SceneMgr class:

- the satellite-name resolver (uppercase, per-name rightmost substring match,
  argmax with first-maximum tie break);
- the footprint corner/ring construction (pixel corners, transform, component
  swap, implicit ring closure);
- the catalog-build control flow (skip unopenable rasters, no handler around
  footprint construction);
- the pandas-style duplicate marking and exclusion (keep the first occurrence);
- the stratified partitioner (group by region and sat_name in first-appearance
  order, reseed, shuffle, slice or n-way chunking);
- the color-table lookups of the visualizer.

External collaborators (gdal, the transform pipeline, the random generator,
the filesystem) are modelled as explicit parameters: the raster open result
and the transformed footprint are per-file inputs, and the shuffle is an
arbitrary state-passing permutation-producing function together with a seed
constructor, mirroring random.seed followed by random.shuffle.

Machine floats of the source are modelled as rationals, and Python round
(banker's rounding, round-half-to-even) is modelled exactly on rationals.
-/

/-! ### Python string primitives used by the source -/

/-- Python str.upper for the ASCII strings handled here (char-wise upcasing). -/
def pyUpper (s : String) : String := ⟨s.data.map Char.toUpper⟩

/-- Python str.lower for the ASCII strings handled here (char-wise downcasing). -/
def pyLower (s : String) : String := ⟨s.data.map Char.toLower⟩

/-- Python s.endswith(suffix) as a suffix test on the character list. -/
def pyEndswith (s sfx : String) : Bool := sfx.data.isSuffixOf s.data

/-- Python s.endswith(tuple): true when some entry of the tuple is a suffix. -/
def pyEndswithAny (s : String) (sfxs : List String) : Bool :=
  sfxs.any (fun e => pyEndswith s e)

/-- Helper for str.rfind: scan the candidate start positions n, n-1, ..., 0 and
return the first (hence largest) position where sub occurs, or -1. -/
def rfindAux (s sub : List Char) : Nat → Int
  | 0 => if sub.isPrefixOf s then 0 else -1
  | n + 1 => if sub.isPrefixOf (s.drop (n + 1)) then Int.ofNat (n + 1) else rfindAux s sub n

/-- Python s.rfind(sub): the highest index at which sub occurs in s as a
substring, or -1 when sub does not occur. -/
def rfind (s sub : List Char) : Int := rfindAux s sub s.length

/-- Index of the first maximum of a list of integers, as computed by
numpy argmax on the match-index list (ties keep the earliest index). -/
def argmaxIdx : List Int → Nat
  | [] => 0
  | [_] => 0
  | x :: y :: rest =>
    if x < (y :: rest).getD (argmaxIdx (y :: rest)) 0 then argmaxIdx (y :: rest) + 1 else 0

/-! ### The satellite-name resolver (SceneMgr._get_satellite_name) -/

/-- SceneMgr.SATELLITE_NAMES, in source order. -/
def SATELLITE_NAMES : List String := ["WV3", "WV2", "WV1", "K3", "K3A", "SKYSAT", "PLANETSCOPE"]

/-- SceneMgr.SATELLITE_COLORS as an association list, in source order. -/
def SATELLITE_COLORS : List (String × String) :=
  [("WV3", "#F423E8"), ("WV2", "#66669C"), ("WV1", "#64be99"),
   ("K3", "#FAAA1E"), ("K3A", "#DCDC00"),
   ("SKYSAT", "#6B8E23"), ("PLANETSCOPE", "#3C14DC")]

/-- SceneMgr._get_satellite_name: uppercase the path, take rfind of every
sensor name, pick the argmax entry, and return UNKNOWN when its index is -1. -/
def getSatelliteName (path : String) : String :=
  let p := pyUpper path
  let sat_match_indices := SATELLITE_NAMES.map (fun sat_name => rfind p.data sat_name.data)
  let sat_idx := argmaxIdx sat_match_indices
  if sat_match_indices.getD sat_idx 0 ≠ -1 then SATELLITE_NAMES.getD sat_idx "UNKNOWN"
  else "UNKNOWN"

/-- Spec-side rightmost-occurrence index: the maximum of all start positions at
which sub occurs as a substring of s, or -1 when there is none.  Stated from
the words of the specification, to be compared with rfind. -/
def specRfind (s sub : List Char) : Int :=
  (((List.range (s.length + 1)).filter (fun i => sub.isPrefixOf (s.drop i))).map
    (fun i => Int.ofNat i)).foldr max (-1)

/-- Spec-side resolver, following the specification text: uppercase the path,
compute the rightmost-occurrence index of each known sensor name, pick the
candidate with the maximum index breaking ties by earliest list position, and
return UNKNOWN when the winning index is -1. -/
def specSatResolve (path : String) : String :=
  let p := pyUpper path
  let idxs := SATELLITE_NAMES.map (fun sat_name => specRfind p.data sat_name.data)
  let winner := idxs.foldr max (-1)
  if winner = -1 then "UNKNOWN"
  else SATELLITE_NAMES.getD (idxs.findIdx (fun v => v == winner)) "UNKNOWN"

/-! ### Lemmas about rfind and argmax -/

theorem foldr_intMax_eq_of_le (c : Int) :
    ∀ (l : List Int), (∀ a ∈ l, a ≤ c) → l.foldr max c = c := by
  intro l
  induction l with
  | nil => intro _; rfl
  | cons a t ih =>
    intro h
    show max a (t.foldr max c) = c
    rw [ih (fun b hb => h b (List.mem_cons_of_mem a hb))]
    exact max_eq_right (h a (List.mem_cons_self a t))

theorem rfindAux_eq_spec (s sub : List Char) :
    ∀ n : Nat, rfindAux s sub n =
      (((List.range (n + 1)).filter (fun i => sub.isPrefixOf (s.drop i))).map
        (fun i => Int.ofNat i)).foldr max (-1) := by
  intro n
  induction n with
  | zero =>
    by_cases h : sub.isPrefixOf s
    · simp [rfindAux, List.range_succ, List.range_zero, h]
    · simp [rfindAux, List.range_succ, List.range_zero, h]
  | succ n ih =>
    have hrange := List.range_succ (n + 1)
    rw [hrange, List.filter_append, List.map_append, List.foldr_append]
    by_cases h : sub.isPrefixOf (s.drop (n + 1))
    · have hfilter : List.filter (fun i => sub.isPrefixOf (s.drop i)) [n + 1] = [n + 1] := by
        simp [List.filter_cons, h]
      rw [hfilter]
      have hmax : (([n + 1] : List Nat).map (fun i => Int.ofNat i)).foldr max (-1) =
          Int.ofNat (n + 1) := by
        simp only [List.map_cons, List.map_nil, List.foldr_cons, List.foldr_nil]
        exact max_eq_left (le_trans (by decide) (Int.ofNat_nonneg (n + 1)))
      rw [hmax]
      rw [foldr_intMax_eq_of_le]
      · simp [rfindAux, h]
      · intro a ha
        obtain ⟨i, hi, rfl⟩ := List.mem_map.mp ha
        have hir : i ∈ List.range (n + 1) := List.mem_of_mem_filter hi
        have := List.mem_range.mp hir
        exact Int.ofNat_le.mpr (Nat.le_of_lt this)
    · have hfilter : List.filter (fun i => sub.isPrefixOf (s.drop i)) [n + 1] = [] := by
        simp [List.filter_cons, h]
      rw [hfilter]
      simp only [List.map_nil, List.foldr_nil]
      simp only [rfindAux, h, if_false]
      exact ih

theorem rfind_eq_specRfind (s sub : List Char) : rfind s sub = specRfind s sub :=
  rfindAux_eq_spec s sub s.length

theorem neg_one_le_rfindAux (s sub : List Char) : ∀ n, (-1 : Int) ≤ rfindAux s sub n := by
  intro n
  induction n with
  | zero =>
    by_cases h : sub.isPrefixOf s
    · rw [rfindAux, if_pos h]; omega
    · rw [rfindAux, if_neg h]
  | succ n ih =>
    by_cases h : sub.isPrefixOf (s.drop (n + 1))
    · rw [rfindAux, if_pos h]
      exact le_trans (by decide) (Int.ofNat_nonneg (n + 1))
    · rw [rfindAux, if_neg h]; exact ih

theorem neg_one_le_rfind (s sub : List Char) : (-1 : Int) ≤ rfind s sub :=
  neg_one_le_rfindAux s sub s.length

/-- The first-maximum property: position j holds the maximum of the list and
every strictly earlier position holds a strictly smaller value. -/
def IsFirstMax (l : List Int) (j : Nat) : Prop :=
  j < l.length ∧ (∀ k, k < l.length → l.getD k 0 ≤ l.getD j 0) ∧
    ∀ k, k < j → l.getD k 0 < l.getD j 0

theorem getD_cons_succ_eq (a : α) (l : List α) (n : Nat) (d : α) :
    (a :: l).getD (n + 1) d = l.getD n d := rfl

theorem getD_cons_zero_eq (a : α) (l : List α) (d : α) : (a :: l).getD 0 d = a := rfl

theorem getD_mem_of_lt : ∀ (l : List α) (n : Nat) (d : α), n < l.length → l.getD n d ∈ l := by
  intro l
  induction l with
  | nil => intro n d h; exact absurd h (by simp)
  | cons a t ih =>
    intro n d h
    cases n with
    | zero => exact List.mem_cons_self a t
    | succ n =>
      rw [getD_cons_succ_eq]
      exact List.mem_cons_of_mem a (ih n d (Nat.lt_of_succ_lt_succ h))

theorem argmaxIdx_isFirstMax : ∀ (l : List Int), l ≠ [] → IsFirstMax l (argmaxIdx l) := by
  intro l
  induction l with
  | nil => intro h; exact absurd rfl h
  | cons x xs ih =>
    intro _
    cases xs with
    | nil =>
      refine ⟨by simp [argmaxIdx], ?_, ?_⟩
      · intro k hk
        have hk0 : k = 0 := by simpa using Nat.lt_one_iff.mp (by simpa using hk)
        subst hk0
        exact le_refl _
      · intro k hk
        simp [argmaxIdx] at hk
    | cons y rest =>
      obtain ⟨hlt, hmax, hfirst⟩ := ih (by simp)
      by_cases hx : x < (y :: rest).getD (argmaxIdx (y :: rest)) 0
      · have harg : argmaxIdx (x :: y :: rest) = argmaxIdx (y :: rest) + 1 := by
          rw [argmaxIdx, if_pos hx]
        rw [harg]
        refine ⟨Nat.succ_lt_succ hlt, ?_, ?_⟩
        · intro k hk
          cases k with
          | zero =>
            rw [getD_cons_zero_eq, getD_cons_succ_eq]
            exact le_of_lt hx
          | succ k =>
            rw [getD_cons_succ_eq, getD_cons_succ_eq]
            exact hmax k (Nat.lt_of_succ_lt_succ hk)
        · intro k hk
          cases k with
          | zero =>
            rw [getD_cons_zero_eq, getD_cons_succ_eq]
            exact hx
          | succ k =>
            rw [getD_cons_succ_eq, getD_cons_succ_eq]
            exact hfirst k (Nat.lt_of_succ_lt_succ hk)
      · have harg : argmaxIdx (x :: y :: rest) = 0 := by
          rw [argmaxIdx, if_neg hx]
        rw [harg]
        refine ⟨Nat.succ_pos _, ?_, ?_⟩
        · intro k hk
          cases k with
          | zero => exact le_refl _
          | succ k =>
            rw [getD_cons_succ_eq, getD_cons_zero_eq]
            exact le_trans (hmax k (Nat.lt_of_succ_lt_succ hk)) (not_lt.mp hx)
        · intro k hk
          exact absurd hk (Nat.not_lt_zero k)

theorem findIdx_isFirstMax :
    ∀ (l : List Int) (M : Int), M ∈ l → (∀ x ∈ l, x ≤ M) →
      IsFirstMax l (l.findIdx (fun v => v == M)) ∧
        l.getD (l.findIdx (fun v => v == M)) 0 = M := by
  intro l
  induction l with
  | nil => intro M hM; exact fun _ => absurd hM (List.not_mem_nil M)
  | cons a t ih =>
    intro M hM hall
    by_cases ha : a = M
    · have hidx : (a :: t).findIdx (fun v => v == M) = 0 := by
        simp [List.findIdx_cons, ha]
      rw [hidx]
      refine ⟨⟨Nat.succ_pos _, ?_, ?_⟩, by rw [getD_cons_zero_eq]; exact ha⟩
      · intro k hk
        cases k with
        | zero => exact le_refl _
        | succ k =>
          rw [getD_cons_succ_eq, getD_cons_zero_eq, ha]
          exact hall _ (List.mem_cons_of_mem a (getD_mem_of_lt t k 0 (Nat.lt_of_succ_lt_succ hk)))
      · intro k hk
        exact absurd hk (Nat.not_lt_zero k)
    · have hMt : M ∈ t := by
        rcases List.mem_cons.mp hM with h | h
        · exact absurd h.symm ha
        · exact h
      have hallt : ∀ x ∈ t, x ≤ M := fun x hx => hall x (List.mem_cons_of_mem a hx)
      obtain ⟨⟨hlt, hmax, hfirst⟩, hval⟩ := ih M hMt hallt
      have hb : (a == M) = false := beq_eq_false_iff_ne.mpr ha
      have hidx : (a :: t).findIdx (fun v => v == M) = t.findIdx (fun v => v == M) + 1 := by
        simp [List.findIdx_cons, hb]
      rw [hidx]
      refine ⟨⟨Nat.succ_lt_succ hlt, ?_, ?_⟩, by rw [getD_cons_succ_eq]; exact hval⟩
      · intro k hk
        cases k with
        | zero =>
          rw [getD_cons_zero_eq, getD_cons_succ_eq, hval]
          exact hall a (List.mem_cons_self a t)
        | succ k =>
          rw [getD_cons_succ_eq, getD_cons_succ_eq]
          exact hmax k (Nat.lt_of_succ_lt_succ hk)
      · intro k hk
        cases k with
        | zero =>
          rw [getD_cons_zero_eq, getD_cons_succ_eq, hval]
          exact lt_of_le_of_ne (hall a (List.mem_cons_self a t)) ha
        | succ k =>
          rw [getD_cons_succ_eq, getD_cons_succ_eq]
          exact hfirst k (Nat.lt_of_succ_lt_succ hk)

theorem isFirstMax_unique {l : List Int} {j₁ j₂ : Nat}
    (h₁ : IsFirstMax l j₁) (h₂ : IsFirstMax l j₂) : j₁ = j₂ := by
  obtain ⟨hb₁, hm₁, hf₁⟩ := h₁
  obtain ⟨hb₂, hm₂, hf₂⟩ := h₂
  rcases Nat.lt_trichotomy j₁ j₂ with h | h | h
  · exact absurd (hm₁ j₂ hb₂) (not_le.mpr (hf₂ j₁ h))
  · exact h
  · exact absurd (hm₂ j₁ hb₁) (not_le.mpr (hf₁ j₂ h))

theorem le_foldr_intMax (c : Int) :
    ∀ (l : List Int) (a : Int), a ∈ l → a ≤ l.foldr max c := by
  intro l
  induction l with
  | nil => intro a ha; exact absurd ha (List.not_mem_nil a)
  | cons x t ih =>
    intro a ha
    show a ≤ max x (t.foldr max c)
    rcases List.mem_cons.mp ha with h | h
    · exact h ▸ le_max_left _ _
    · exact le_trans (ih a h) (le_max_right _ _)

theorem foldr_intMax_mem (c : Int) :
    ∀ (l : List Int), l.foldr max c = c ∨ l.foldr max c ∈ l := by
  intro l
  induction l with
  | nil => exact Or.inl rfl
  | cons x t ih =>
    show max x (t.foldr max c) = c ∨ max x (t.foldr max c) ∈ x :: t
    rcases max_choice x (t.foldr max c) with h | h
    · rw [h]
      exact Or.inr (List.mem_cons_self x t)
    · rw [h]
      rcases ih with h2 | h2
      · exact Or.inl h2
      · exact Or.inr (List.mem_cons_of_mem x h2)

theorem satResolve_agree (path : String) : getSatelliteName path = specSatResolve path := by
  have hidx : SATELLITE_NAMES.map (fun sat_name => specRfind (pyUpper path).data sat_name.data)
      = SATELLITE_NAMES.map (fun sat_name => rfind (pyUpper path).data sat_name.data) := by
    apply List.map_congr_left
    intro a _
    exact (rfind_eq_specRfind _ _).symm
  simp only [getSatelliteName, specSatResolve, hidx]
  set idxs := SATELLITE_NAMES.map (fun sat_name => rfind (pyUpper path).data sat_name.data)
    with hidxs
  have hne : idxs ≠ [] := by rw [hidxs, SATELLITE_NAMES]; simp
  have hge : ∀ x ∈ idxs, (-1 : Int) ≤ x := by
    rw [hidxs]
    intro x hx
    obtain ⟨sn, _, rfl⟩ := List.mem_map.mp hx
    exact neg_one_le_rfind _ _
  have hMub : ∀ x ∈ idxs, x ≤ idxs.foldr max (-1) := fun x hx => le_foldr_intMax _ idxs x hx
  by_cases hM1 : idxs.foldr max (-1) = -1
  · rw [if_pos hM1]
    have hb := (argmaxIdx_isFirstMax idxs hne).1
    have hmem := getD_mem_of_lt idxs (argmaxIdx idxs) 0 hb
    have hle : idxs.getD (argmaxIdx idxs) 0 ≤ -1 := hM1 ▸ hMub _ hmem
    have hgd : idxs.getD (argmaxIdx idxs) 0 = -1 := le_antisymm hle (hge _ hmem)
    rw [if_neg (not_not_intro hgd)]
  · rw [if_neg hM1]
    have hMmem : idxs.foldr max (-1) ∈ idxs := by
      rcases foldr_intMax_mem (-1) idxs with h | h
      · exact absurd h hM1
      · exact h
    obtain ⟨hfm_f, hval⟩ := findIdx_isFirstMax idxs (idxs.foldr max (-1)) hMmem hMub
    have hfm_a := argmaxIdx_isFirstMax idxs hne
    have heq : argmaxIdx idxs = idxs.findIdx (fun v => v == idxs.foldr max (-1)) :=
      isFirstMax_unique hfm_a hfm_f
    have hgetD : idxs.getD (argmaxIdx idxs) 0 = idxs.foldr max (-1) := by rw [heq]; exact hval
    rw [if_pos (by rw [hgetD]; exact hM1), heq]

/-- C2: for every file path, the resolver uppercases the path, computes the
rightmost occurrence index of each name of the fixed sensor list (-1 when
absent), and returns the sensor with the maximum index, ties broken by the
earliest position in the fixed list, or UNKNOWN when every index is -1; in
particular the example path resolves to K3. -/
theorem c2_satellite_name_resolver :
    (∀ path : String, getSatelliteName path = specSatResolve path) ∧
      getSatelliteName ".../K3A/WV3_scene/img_K3.tif" = "K3" :=
  ⟨satResolve_agree, by decide⟩

/-! ### The footprint ring (SceneMgr.__init__, corner and polygon part) -/

/-- Pixel-space corner list of a raster of the given width and height, in
source order: top-left, top-right, bottom-right, bottom-left. -/
def rasterCorners (width height : Int) : List (Int × Int) :=
  [(0, 0), (width, 0), (width, height), (0, height)]

/-- The component swap applied to every transformed point, turning the
(lat, lon) output of the transform pipeline into (lon, lat). -/
def swapPair {beta : Type} (p : beta × beta) : beta × beta := (p.2, p.1)

/-- The exterior-ring coordinates of a shapely polygon built from a point
list: closed by repeating the first point unless already closed. -/
def polygonRing {pt : Type} [DecidableEq pt] (pts : List pt) : List pt :=
  match pts.head?, pts.getLast? with
  | some h, some t => if h = t then pts else pts ++ [h]
  | _, _ => pts

/-- The footprint ring construction of SceneMgr.__init__: the pixel corner
list, the composite pixel-to-geographic transform of the external
collaborator, the component swap, and the polygon ring closure. -/
def footprintRing {beta : Type} [DecidableEq beta] (width height : Int)
    (pixToGeo : Int × Int → beta × beta) : List (beta × beta) :=
  polygonRing ((rasterCorners width height).map (fun c => swapPair (pixToGeo c)))

/-- C3: for positive width and height, the footprint ring is the four pixel
corners in order top-left, top-right, bottom-right, bottom-left, mapped
through the transform, each pair swapped to (lon, lat), with the first point
repeated at the end, hence exactly 5 vertices; the transform is assumed to
separate the two corners compared by the ring-closure test. -/
theorem c3_footprint_ring {beta : Type} [DecidableEq beta] (width height : Int)
    (_hW : 0 < width) (_hH : 0 < height) (pixToGeo : Int × Int → beta × beta)
    (hnd : pixToGeo (0, 0) ≠ pixToGeo (0, height)) :
    footprintRing width height pixToGeo =
      [swapPair (pixToGeo (0, 0)), swapPair (pixToGeo (width, 0)),
       swapPair (pixToGeo (width, height)), swapPair (pixToGeo (0, height)),
       swapPair (pixToGeo (0, 0))] ∧
      (footprintRing width height pixToGeo).length = 5 := by
  have hswap : swapPair (pixToGeo (0, 0)) ≠ swapPair (pixToGeo (0, height)) := by
    intro h
    apply hnd
    have h2 := congrArg swapPair h
    simpa [swapPair] using h2
  have hcore : footprintRing width height pixToGeo =
      (if swapPair (pixToGeo (0, 0)) = swapPair (pixToGeo (0, height)) then
        [swapPair (pixToGeo (0, 0)), swapPair (pixToGeo (width, 0)),
         swapPair (pixToGeo (width, height)), swapPair (pixToGeo (0, height))]
      else
        [swapPair (pixToGeo (0, 0)), swapPair (pixToGeo (width, 0)),
         swapPair (pixToGeo (width, height)), swapPair (pixToGeo (0, height))] ++
          [swapPair (pixToGeo (0, 0))]) := rfl
  have heq : footprintRing width height pixToGeo =
      [swapPair (pixToGeo (0, 0)), swapPair (pixToGeo (width, 0)),
       swapPair (pixToGeo (width, height)), swapPair (pixToGeo (0, height)),
       swapPair (pixToGeo (0, 0))] := by
    rw [hcore, if_neg hswap]
    rfl
  exact ⟨heq, by rw [heq]; rfl⟩

/-- Witness for C3 at a concrete raster and transform. -/
theorem c3_footprint_ring_witness :
    footprintRing 2 3 (fun c : Int × Int => c) =
      [((0 : Int), (0 : Int)), (0, 2), (3, 2), (3, 0), (0, 0)] ∧
      (footprintRing 2 3 (fun c : Int × Int => c)).length = 5 :=
  c3_footprint_ring 2 3 (by decide) (by decide) (fun c => c) (by decide)

/-! ### Catalog records -/

/-- The SceneInfo namedtuple of the source; the geometry (footprint polygon)
type is abstract. -/
structure SceneInfo (P : Type) where
  sat_name : String
  absname : String
  name : String
  ext : String
  is_anno : Bool
  geometry : P
deriving DecidableEq

/-- One catalog row: the SceneInfo fields plus the externally supplied
columns region and is_infer that the partitioner and counting operations
assume to be present. -/
structure SceneRec (G : Type) where
  sat_name : String
  absname : String
  name : String
  ext : String
  is_anno : Bool
  geometry : G
  region : String
  is_infer : Bool
deriving DecidableEq

/-! ### Path handling of the catalog build (os.path) -/

/-- Python os.path.basename: everything after the last slash. -/
def pyBasename (p : String) : String :=
  ⟨p.data.drop (rfind p.data ['/'] + 1).toNat⟩

/-- Python os.path.splitext: split off the extension at the last dot of the
final path component, unless every character of the final component before
that dot is itself a dot. -/
def pySplitext (p : String) : String × String :=
  let cs := p.data
  let sepIndex := rfind cs ['/']
  let dotIndex := rfind cs ['.']
  if sepIndex < dotIndex ∧
      ((cs.drop (sepIndex + 1).toNat).take (dotIndex - sepIndex - 1).toNat).any
        (fun c => c ≠ '.') then
    (⟨cs.take dotIndex.toNat⟩, ⟨cs.drop dotIndex.toNat⟩)
  else (p, "")

/-- The file filter of the catalog build (SceneMgr.__init__): a discovered
file survives when its lowercased filename ends with one of the
image-extension entries, and, when a name-suffix filter is set for the root,
the lowercased path without its extension ends with that suffix (the source
skips the second test for a falsy suffix, modelled as none). -/
def keptFile (img_ext : List String) (suffix : Option String) (path : String) : Bool :=
  pyEndswithAny (pyLower (pyBasename path)) img_ext &&
    (match suffix with
     | none => true
     | some sfx => pyEndswith (pyLower (pySplitext path).1) sfx)

/-- The claimed file filter, stated from the words of the specification: the
extension of the filename (case-insensitive, without its leading dot) is an
entry of the allow-list and, when the suffix filter is set, the filename
without its extension (case-insensitive) ends with that suffix. -/
def keptFileClaim (img_ext : List String) (suffix : Option String) (path : String) : Bool :=
  let fname := pyBasename path
  img_ext.contains (pyLower ⟨(pySplitext fname).2.data.drop 1⟩) &&
    (match suffix with
     | none => true
     | some sfx => pyEndswith (pyLower (pySplitext fname).1) sfx)

/-! ### The catalog build loop (SceneMgr.__init__) -/

deriving instance DecidableEq for Except

/-- Per-file inputs of one catalog-build iteration, supplied by the external
collaborators: the file path, whether the sidecar annotation file exists, and
the gdal open outcome; an opened raster carries the outcome of the
transform-and-polygon pipeline, an error when footprint construction fails. -/
structure FileModel (P : Type) where
  path : String
  is_anno : Bool
  raster : Option (Except String P)
deriving DecidableEq

/-- The per-path loop of SceneMgr.__init__: an unopenable raster is skipped
with a diagnostic and the loop continues; an error during footprint
construction propagates out of the loop, because the source has no handler
around it; otherwise the assembled SceneInfo is appended. -/
def buildCatalogGo {P : Type} (acc : List (SceneInfo P)) :
    List (FileModel P) → Except String (List (SceneInfo P))
  | [] => Except.ok acc
  | f :: rest =>
    match f.raster with
    | none => buildCatalogGo acc rest
    | some (Except.error e) => Except.error e
    | some (Except.ok poly) =>
      let nx := pySplitext (pyBasename f.path)
      buildCatalogGo
        (acc ++ [⟨getSatelliteName f.path, f.path, nx.1, nx.2, f.is_anno, poly⟩]) rest

/-- The record-assembly loop of the catalog build, over the kept files. -/
def buildCatalog {P : Type} (files : List (FileModel P)) :
    Except String (List (SceneInfo P)) :=
  buildCatalogGo [] files

/-! ### Duplicate handling (SceneMgr.duplicated, SceneMgr.exclude_duplicated) -/

/-- The rows marked True by the pandas duplicated() mask with its default
keep of the first occurrence: every row whose name equals the name of an
earlier row; seen carries the names encountered so far. -/
def dupRows {G : Type} (seen : List String) : List (SceneRec G) → List (SceneRec G)
  | [] => []
  | r :: rest =>
    if r.name ∈ seen then r :: dupRows (r.name :: seen) rest
    else dupRows (r.name :: seen) rest

/-- SceneMgr.duplicated: the sub-catalog of rows marked by name.duplicated(). -/
def duplicated {G : Type} (gdf : List (SceneRec G)) : List (SceneRec G) :=
  dupRows [] gdf

/-- The rows kept by the negated duplicated() mask: the first row of each
name, in catalog order. -/
def keepFirstRows {G : Type} (seen : List String) : List (SceneRec G) → List (SceneRec G)
  | [] => []
  | r :: rest =>
    if r.name ∈ seen then keepFirstRows (r.name :: seen) rest
    else r :: keepFirstRows (r.name :: seen) rest

/-- SceneMgr.exclude_duplicated: with another catalog given, drop every row
whose name appears in it; with no argument, keep only the first row of each
name. -/
def exclude_duplicated {G : Type} (gdf : List (SceneRec G))
    (other : Option (List (SceneRec G))) : List (SceneRec G) :=
  match other with
  | some o => gdf.filter (fun r => ¬ r.name ∈ o.map SceneRec.name)
  | none => keepFirstRows [] gdf

/-! ### The stratified partitioner -/

/-- Python round on rationals: round-half-to-even (banker's rounding). -/
def pyRound (q : ℚ) : Int :=
  if q - (Int.floor q : ℚ) < 1/2 then Int.floor q
  else if (1/2 : ℚ) < q - (Int.floor q : ℚ) then Int.floor q + 1
  else if Int.floor q % 2 = 0 then Int.floor q else Int.floor q + 1

/-- Python list slicing l[:n] for an integer n: a negative stop counts from
the end of the list, clamped at zero. -/
def pyTake {alpha : Type} (n : Int) (l : List alpha) : List alpha :=
  if 0 ≤ n then l.take n.toNat else l.take ((l.length + n).toNat)

/-- Python list slicing l[n:] for an integer n: a negative start counts from
the end of the list, clamped at zero. -/
def pyDrop {alpha : Type} (n : Int) (l : List alpha) : List alpha :=
  if 0 ≤ n then l.drop n.toNat else l.drop ((l.length + n).toNat)

/-- pandas Series.unique: the distinct values in order of first appearance. -/
def pdUniqueAux {alpha : Type} [DecidableEq alpha] (seen : List alpha) :
    List alpha → List alpha
  | [] => []
  | x :: rest =>
    if x ∈ seen then pdUniqueAux seen rest else x :: pdUniqueAux (x :: seen) rest

/-- pandas Series.unique over a whole column. -/
def pdUnique {alpha : Type} [DecidableEq alpha] (l : List alpha) : List alpha :=
  pdUniqueAux [] l

/-- The nested group iteration shared by the partitioner operations: for
every region in first-appearance order, for every sat_name within that
region in first-appearance order, the rows of that (region, sat_name) group
in catalog order. -/
def regionSatGroups {G : Type} (gdf : List (SceneRec G)) : List (List (SceneRec G)) :=
  (pdUnique (gdf.map SceneRec.region)).flatMap (fun rg =>
    let region_df := gdf.filter (fun r => r.region = rg)
    (pdUnique (region_df.map SceneRec.sat_name)).map (fun sn =>
      region_df.filter (fun r => r.sat_name = sn)))

/-- One group step of SceneMgr.split_train_and_test: reseed the generator
with the constant 42, shuffle the group names with it, and append the first
round(len times frac) names to the test list and the remaining names to the
train list. -/
def splitTTGo {sigma : Type} (seed : Nat → sigma)
    (shuf : List String → sigma → List String × sigma) (frac : ℚ) :
    List (List String) → List String × List String × sigma →
      List String × List String × sigma
  | [], acc => acc
  | g :: gs, acc =>
    let sh := shuf g (seed 42)
    let n := pyRound ((sh.1.length : ℚ) * frac)
    splitTTGo seed shuf frac gs (acc.1 ++ pyDrop n sh.1, acc.2.1 ++ pyTake n sh.1, sh.2)

/-- SceneMgr.split_train_and_test with the global random generator made
explicit: the train and test filename lists. -/
def split_train_and_test {sigma G : Type} (seed : Nat → sigma)
    (shuf : List String → sigma → List String × sigma) (gdf : List (SceneRec G))
    (frac : ℚ) (s0 : sigma) : List String × List String :=
  let r := splitTTGo seed shuf frac
    ((regionSatGroups gdf).map (List.map SceneRec.name)) ([], [], s0)
  (r.1, r.2.1)

/-- The numpy array_split chunk sizes: l mod n chunks of size l div n plus
one, followed by the remaining chunks of size l div n. -/
def arraySplitSizes (L n : Nat) : List Nat :=
  List.replicate (L % n) (L / n + 1) ++ List.replicate (n - L % n) (L / n)

/-- Cut successive chunks of the given sizes off the front of the list. -/
def chunksBySizes {alpha : Type} : List alpha → List Nat → List (List alpha)
  | _, [] => []
  | l, s :: ss => l.take s :: chunksBySizes (l.drop s) ss

/-- numpy array_split of a list into n contiguous near-equal chunks. -/
def array_split {alpha : Type} (l : List alpha) (n : Nat) : List (List alpha) :=
  chunksBySizes l (arraySplitSizes l.length n)

/-- One group step of SceneMgr.split_n: reseed with 42, shuffle the group
paths, split them into n chunks with array_split, and pair chunk i with
destination i in order; the filesystem transfer of each pair (and its anchor
based destination munging) is outside the computed plan. -/
def splitNGo {sigma : Type} (seed : Nat → sigma)
    (shuf : List String → sigma → List String × sigma) (n : Nat)
    (dst_paths : List String) :
    List (List String) → List (List String × String) × sigma →
      List (List String × String) × sigma
  | [], acc => acc
  | g :: gs, acc =>
    let sh := shuf g (seed 42)
    splitNGo seed shuf n dst_paths gs (acc.1 ++ (array_split sh.1 n).zip dst_paths, sh.2)

/-- The transfer plan computed by SceneMgr.split_n: for every (region,
sat_name) group in iteration order, the chunk-destination pairs. -/
def split_n_plan {sigma G : Type} (seed : Nat → sigma)
    (shuf : List String → sigma → List String × sigma) (gdf : List (SceneRec G))
    (n : Nat) (dst_paths : List String) (s0 : sigma) : List (List String × String) :=
  (splitNGo seed shuf n dst_paths
    ((regionSatGroups gdf).map (List.map SceneRec.absname)) ([], s0)).1

/-! ### The spatial visualizer (SceneMgr.vis_on_map, SceneMgr.get_legend) -/

/-- Lookup in the SATELLITE_COLORS dict; none models a KeyError. -/
def lookupColor (sat_name : String) : Option String :=
  (SATELLITE_COLORS.find? (fun p => p.1 == sat_name)).map Prod.snd

/-- The legend rows built by SceneMgr.get_legend: one (color, sat_name) pair
per distinct sat_name in first-appearance order, failing like the source
with a KeyError at the first sat_name missing from the color table. -/
def legendGo : List String → Except String (List (String × String))
  | [] => Except.ok []
  | sn :: rest =>
    match lookupColor sn with
    | none => Except.error sn
    | some c =>
      match legendGo rest with
      | Except.error e => Except.error e
      | Except.ok tail => Except.ok ((c, sn) :: tail)

/-- SceneMgr.get_legend over the catalog. -/
def get_legend {G : Type} (gdf : List (SceneRec G)) :
    Except String (List (String × String)) :=
  legendGo (pdUnique (gdf.map SceneRec.sat_name))

/-- The styled polygons emitted by SceneMgr.vis_on_map: per distinct
sat_name, per row of that sensor, the footprint with the color of the sensor
and the row name as label; fails like the source with a KeyError when a
sat_name has no color. -/
def visGo {G : Type} (gdf : List (SceneRec G)) :
    List String → Except String (List (G × String × String))
  | [] => Except.ok []
  | sn :: rest =>
    match lookupColor sn with
    | none => Except.error sn
    | some c =>
      match visGo gdf rest with
      | Except.error e => Except.error e
      | Except.ok tail =>
        Except.ok (((gdf.filter (fun r => r.sat_name = sn)).map
          (fun r => (r.geometry, c, r.name))) ++ tail)

/-- SceneMgr.vis_on_map: the styled polygons of every record followed by the
legend; a missing color key fails the whole rendering. -/
def vis_on_map {G : Type} (gdf : List (SceneRec G)) :
    Except String (List (G × String × String) × List (String × String)) :=
  match visGo gdf (pdUnique (gdf.map SceneRec.sat_name)), get_legend gdf with
  | Except.error e, _ => Except.error e
  | Except.ok _, Except.error e => Except.error e
  | Except.ok polys, Except.ok lg => Except.ok (polys, lg)

/-! ### Lemmas on duplicate marking -/

theorem dupRows_filter {G : Type} (nm : String) :
    ∀ (l : List (SceneRec G)) (seen : List String),
      (dupRows seen l).filter (fun r => r.name = nm) =
        if nm ∈ seen then l.filter (fun r => r.name = nm)
        else (l.filter (fun r => r.name = nm)).drop 1 := by
  intro l
  induction l with
  | nil =>
    intro seen
    by_cases h : nm ∈ seen <;> simp [dupRows, h]
  | cons r rest ih =>
    intro seen
    by_cases hnm : r.name = nm
    · subst hnm
      have hcond : decide (r.name = r.name) = true := by simp
      by_cases hr : r.name ∈ seen
      · rw [dupRows, if_pos hr]
        rw [List.filter_cons, List.filter_cons, if_pos hcond, if_pos hcond]
        rw [ih, if_pos (List.mem_cons_self r.name seen), if_pos hr]
      · rw [dupRows, if_neg hr]
        rw [ih, if_pos (List.mem_cons_self r.name seen), if_neg hr]
        rw [List.filter_cons, if_pos hcond]
        rw [List.drop_one, List.tail_cons]
    · have hmem : (nm ∈ r.name :: seen) ↔ nm ∈ seen := by
        constructor
        · intro h
          rcases List.mem_cons.mp h with h | h
          · exact absurd h.symm hnm
          · exact h
        · exact fun h => List.mem_cons_of_mem _ h
      have hcond : ¬ (decide (r.name = nm) = true) := by simp [hnm]
      by_cases hr : r.name ∈ seen
      · rw [dupRows, if_pos hr]
        rw [List.filter_cons, List.filter_cons, if_neg hcond, if_neg hcond]
        rw [ih]
        by_cases h2 : nm ∈ seen
        · rw [if_pos (hmem.mpr h2), if_pos h2]
        · rw [if_neg (fun hc => h2 (hmem.mp hc)), if_neg h2]
      · rw [dupRows, if_neg hr]
        rw [ih, List.filter_cons, if_neg hcond]
        by_cases h2 : nm ∈ seen
        · rw [if_pos (hmem.mpr h2), if_pos h2]
        · rw [if_neg (fun hc => h2 (hmem.mp hc)), if_neg h2]

theorem keepFirstRows_filter {G : Type} (nm : String) :
    ∀ (l : List (SceneRec G)) (seen : List String),
      (keepFirstRows seen l).filter (fun r => r.name = nm) =
        if nm ∈ seen then [] else (l.filter (fun r => r.name = nm)).take 1 := by
  intro l
  induction l with
  | nil =>
    intro seen
    by_cases h : nm ∈ seen <;> simp [keepFirstRows, h]
  | cons r rest ih =>
    intro seen
    by_cases hnm : r.name = nm
    · subst hnm
      have hcond : decide (r.name = r.name) = true := by simp
      by_cases hr : r.name ∈ seen
      · rw [keepFirstRows, if_pos hr]
        rw [ih, if_pos (List.mem_cons_self r.name seen), if_pos hr]
      · rw [keepFirstRows, if_neg hr]
        rw [List.filter_cons, if_pos hcond]
        rw [List.filter_cons, if_pos hcond]
        rw [ih, if_pos (List.mem_cons_self r.name seen), if_neg hr]
        rfl
    · have hmem : (nm ∈ r.name :: seen) ↔ nm ∈ seen := by
        constructor
        · intro h
          rcases List.mem_cons.mp h with h | h
          · exact absurd h.symm hnm
          · exact h
        · exact fun h => List.mem_cons_of_mem _ h
      have hcond : ¬ (decide (r.name = nm) = true) := by simp [hnm]
      by_cases hr : r.name ∈ seen
      · rw [keepFirstRows, if_pos hr]
        rw [ih, List.filter_cons, if_neg hcond]
        by_cases h2 : nm ∈ seen
        · rw [if_pos (hmem.mpr h2), if_pos h2]
        · rw [if_neg (fun hc => h2 (hmem.mp hc)), if_neg h2]
      · rw [keepFirstRows, if_neg hr]
        rw [List.filter_cons, List.filter_cons, if_neg hcond, if_neg hcond]
        rw [ih]
        by_cases h2 : nm ∈ seen
        · rw [if_pos (hmem.mpr h2), if_pos h2]
        · rw [if_neg (fun hc => h2 (hmem.mp hc)), if_neg h2]

theorem keepFirstRows_sublist {G : Type} :
    ∀ (l : List (SceneRec G)) (seen : List String),
      List.Sublist (keepFirstRows seen l) l := by
  intro l
  induction l with
  | nil => intro seen; exact List.Sublist.refl []
  | cons r rest ih =>
    intro seen
    by_cases hr : r.name ∈ seen
    · rw [keepFirstRows, if_pos hr]
      exact List.Sublist.cons r (ih _)
    · rw [keepFirstRows, if_neg hr]
      exact List.Sublist.cons₂ r (ih _)

theorem count_name_eq_length_filter {G : Type} (gdf : List (SceneRec G)) (nm : String) :
    (gdf.map SceneRec.name).count nm = (gdf.filter (fun r => r.name = nm)).length := by
  induction gdf with
  | nil => rfl
  | cons r rest ih =>
    by_cases h : r.name = nm
    · simp [List.count_cons, List.filter_cons, h, ih]
    · simp [List.count_cons, List.filter_cons, h, ih]

/-- Two catalog rows sharing the name a at different paths, in one region and
sensor group. -/
def recA : SceneRec Unit := ⟨"WV3", "/d1/a.tif", "a", ".tif", false, (), "r1", false⟩

/-- Second row of the duplicated pair. -/
def recB : SceneRec Unit := ⟨"WV3", "/d2/a.tif", "a", ".tif", false, (), "r1", false⟩

/-- C1 counterexample: in the two-row catalog recA, recB with the shared name
a, the name occurs twice, yet duplicated() returns only the second row; the
first occurrence recA is not among the returned records, contradicting the
claim that every occurrence of a repeated name is returned. -/
theorem c1_counterexample :
    (([recA, recB].map SceneRec.name).count "a" = 2) ∧
      duplicated [recA, recB] = [recB] ∧ ¬ recA ∈ duplicated [recA, recB] := by
  refine ⟨by decide, by decide, ?_⟩
  intro h
  rw [show duplicated [recA, recB] = [recB] from by decide] at h
  exact absurd (by decide : ¬ recA = recB) (by
    rcases List.mem_singleton.mp h with h2
    exact fun hc => hc h2)

/-- C1 (amended): duplicated() returns exactly the repeat occurrences of each
name, in catalog order: for every name, the returned rows of that name are
the rows after the first occurrence; hence a name appears among the returned
records precisely when it occurs more than once in the catalog (repeats are
detectable, but the first occurrence is not returned). -/
theorem c1_duplicated_amended {G : Type} (gdf : List (SceneRec G)) :
    (∀ nm, (duplicated gdf).filter (fun r => r.name = nm) =
        (gdf.filter (fun r => r.name = nm)).drop 1) ∧
      ∀ nm, nm ∈ (duplicated gdf).map SceneRec.name ↔
        2 ≤ (gdf.map SceneRec.name).count nm := by
  have hdup : ∀ nm, (duplicated gdf).filter (fun r => r.name = nm) =
      (gdf.filter (fun r => r.name = nm)).drop 1 := by
    intro nm
    rw [duplicated, dupRows_filter nm gdf [], if_neg (List.not_mem_nil nm)]
  refine ⟨hdup, ?_⟩
  intro nm
  rw [count_name_eq_length_filter]
  constructor
  · intro hmem
    obtain ⟨r, hr, hname⟩ := List.mem_map.mp hmem
    have hrf : r ∈ (duplicated gdf).filter (fun x => x.name = nm) :=
      List.mem_filter.mpr ⟨hr, by simp [hname]⟩
    rw [hdup nm] at hrf
    have hne : (gdf.filter (fun x => x.name = nm)).drop 1 ≠ [] := List.ne_nil_of_mem hrf
    have hpos := List.length_pos.mpr hne
    rw [List.length_drop] at hpos
    omega
  · intro h2
    have hpos : 0 < ((gdf.filter (fun x => x.name = nm)).drop 1).length := by
      rw [List.length_drop]
      omega
    obtain ⟨r, hr⟩ := List.exists_mem_of_ne_nil _ (List.ne_nil_of_length_pos hpos)
    rw [← hdup nm] at hr
    refine List.mem_map.mpr ⟨r, (List.mem_filter.mp hr).1, ?_⟩
    have := (List.mem_filter.mp hr).2
    simpa using this

/-- C7: exclude_duplicated() with no argument keeps, for each name, exactly
the first-encountered record: afterwards no name has count above 1, every
name present in the catalog survives with count exactly 1, the surviving rows
of each name are the first matching record of the original order, and the
result is a subsequence of the catalog. -/
theorem c7_exclude_duplicated {G : Type} (gdf : List (SceneRec G)) :
    (∀ nm, ((exclude_duplicated gdf none).map SceneRec.name).count nm ≤ 1) ∧
      (∀ nm, nm ∈ gdf.map SceneRec.name →
        ((exclude_duplicated gdf none).map SceneRec.name).count nm = 1) ∧
      (∀ nm, (exclude_duplicated gdf none).filter (fun r => r.name = nm) =
        (gdf.filter (fun r => r.name = nm)).take 1) ∧
      List.Sublist (exclude_duplicated gdf none) gdf := by
  have hkeep : ∀ nm, (exclude_duplicated gdf none).filter (fun r => r.name = nm) =
      (gdf.filter (fun r => r.name = nm)).take 1 := by
    intro nm
    rw [exclude_duplicated, keepFirstRows_filter nm gdf [], if_neg (List.not_mem_nil nm)]
  have hcount : ∀ nm, ((exclude_duplicated gdf none).map SceneRec.name).count nm =
      min 1 (gdf.filter (fun r => r.name = nm)).length := by
    intro nm
    rw [count_name_eq_length_filter, hkeep nm, List.length_take]
  refine ⟨?_, ?_, hkeep, ?_⟩
  · intro nm
    rw [hcount nm]
    omega
  · intro nm hmem
    obtain ⟨r, hr, hname⟩ := List.mem_map.mp hmem
    have hrf : r ∈ gdf.filter (fun x => x.name = nm) :=
      List.mem_filter.mpr ⟨hr, by simp [hname]⟩
    have hpos := List.length_pos.mpr (List.ne_nil_of_mem hrf)
    rw [hcount nm]
    omega
  · exact keepFirstRows_sublist gdf []

/-- Witness for C7 at the concrete duplicated catalog. -/
theorem c7_exclude_duplicated_witness :
    "a" ∈ ([recA, recB].map SceneRec.name) ∧
      ((exclude_duplicated [recA, recB] none).map SceneRec.name).count "a" = 1 :=
  ⟨by decide, (c7_exclude_duplicated [recA, recB]).2.1 "a" (by decide)⟩

/-- A file whose footprint pipeline raises and would abort the build. -/
def fileBad : FileModel Unit := ⟨"/d/WV3/x.tif", false, some (Except.error "GeometryError")⟩

/-- A file that opens and yields a footprint. -/
def fileGood : FileModel Unit := ⟨"/d/K3/y.tif", true, some (Except.ok ())⟩

/-- A file whose raster cannot be opened (gdal.Open returns None). -/
def fileUnopenable : FileModel Unit := ⟨"/d/WV2/z.tif", false, none⟩

/-- Whether a file makes the build loop raise: its raster opened but its
footprint pipeline failed. -/
def fileFails {P : Type} (f : FileModel P) : Bool :=
  match f.raster with
  | some (Except.error _) => true
  | _ => false

/-- C4 counterexample: with a failing footprint in the first file and a good
second file, the catalog build returns the error instead of skipping the
failing record and cataloguing the good one, which alone would have produced
its record. -/
theorem c4_counterexample :
    buildCatalog [fileBad, fileGood] = Except.error "GeometryError" ∧
      buildCatalog [fileGood] =
        Except.ok [⟨"K3", "/d/K3/y.tif", "y", ".tif", true, ()⟩] := by
  constructor
  · decide
  · decide

/-- C4 (amended): a failure of footprint construction is not caught: the
first file whose footprint pipeline fails aborts the whole catalog build with
that error, there being no handler in the loop; only a file whose raster
cannot be opened is skipped, with the build continuing on the rest. -/
theorem c4_build_error_propagates {P : Type} (pre post : List (FileModel P))
    (f : FileModel P) (e : String) (hpre : ∀ g ∈ pre, fileFails g = false)
    (hf : f.raster = some (Except.error e)) :
    buildCatalog (pre ++ f :: post) = Except.error e ∧
      ∀ (f2 : FileModel P) (rest : List (FileModel P)), f2.raster = none →
        buildCatalog (f2 :: rest) = buildCatalog rest := by
  have hgo : ∀ (pre2 : List (FileModel P)), (∀ g ∈ pre2, fileFails g = false) → ∀ acc,
      buildCatalogGo acc (pre2 ++ f :: post) = Except.error e := by
    intro pre2
    induction pre2 with
    | nil =>
      intro _ acc
      simp only [List.nil_append, buildCatalogGo, hf]
    | cons g pre2 ih =>
      intro hp acc
      have hgnf := hp g (List.mem_cons_self g pre2)
      rcases hg : g.raster with _ | res
      · simp only [List.cons_append, buildCatalogGo, hg]
        exact ih (fun x hx => hp x (List.mem_cons_of_mem g hx)) acc
      · rcases res with e2 | poly
        · rw [fileFails, hg] at hgnf
          exact absurd hgnf (by simp)
        · simp only [List.cons_append, buildCatalogGo, hg]
          exact ih (fun x hx => hp x (List.mem_cons_of_mem g hx)) _
  refine ⟨hgo pre hpre [], ?_⟩
  intro f2 rest h2
  rw [buildCatalog, buildCatalog]
  simp only [buildCatalogGo, h2]

/-- Witness for C4 at concrete files: the failing file aborts the build even
with a sound file before and after it, and the unopenable file is skipped. -/
theorem c4_build_error_propagates_witness :
    buildCatalog [fileGood, fileBad, fileGood] = Except.error "GeometryError" ∧
      buildCatalog [fileUnopenable, fileGood] = buildCatalog [fileGood] := by
  have h := c4_build_error_propagates [fileGood] [fileGood] fileBad "GeometryError"
    (by decide) (by decide)
  exact ⟨h.1, h.2 fileUnopenable [fileGood] (by decide)⟩

/-! ### C9: the file filter -/

theorem pySplitext_append (p : String) : (pySplitext p).1 ++ (pySplitext p).2 = p := by
  rw [pySplitext]
  by_cases h : rfind p.data ['/'] < rfind p.data ['.'] ∧
      ((p.data.drop (rfind p.data ['/'] + 1).toNat).take
        (rfind p.data ['.'] - rfind p.data ['/'] - 1).toNat).any (fun c => c ≠ '.')
  · rw [if_pos h]
    show String.mk (p.data.take (rfind p.data ['.']).toNat ++
      p.data.drop (rfind p.data ['.']).toNat) = p
    rw [List.take_append_drop]
  · rw [if_neg h]
    show String.mk (p.data ++ []) = p
    rw [List.append_nil]

theorem pyLower_append (a b : String) : pyLower (a ++ b) = pyLower a ++ pyLower b := by
  show String.mk ((a.data ++ b.data).map Char.toLower) = String.mk (a.data.map Char.toLower ++ b.data.map Char.toLower)
  rw [List.map_append]

/-- C9 counterexample: the filename a.motif is kept by the build filter (its
lowercased name ends with the entry tif) although its extension motif is not
in the allow-list; and with suffix filter q/q the file AQ/Q.tif is kept (the
path without extension, aq/q, ends with the suffix) although its filename
without extension, q, does not. -/
theorem c9_counterexample :
    keptFile ["jp2", "tif"] none "a.motif" = true ∧
      keptFileClaim ["jp2", "tif"] none "a.motif" = false ∧
      keptFile ["jp2", "tif"] (some "q/q") "AQ/Q.tif" = true ∧
      keptFileClaim ["jp2", "tif"] (some "q/q") "AQ/Q.tif" = false := by
  refine ⟨by decide, by decide, by decide, by decide⟩

/-- C9 (amended): a discovered file is kept iff its lowercased filename ends
with one of the allow-list entries (not necessarily as its whole extension)
and, when a filename-suffix filter is set, the lowercased full path without
its extension ends with that suffix; having an allow-listed extension (after
the dot, case-insensitively) remains sufficient for the filename test. -/
theorem c9_kept_file_amended :
    (∀ (img_ext : List String) (suffix : Option String) (path : String),
      keptFile img_ext suffix path = true ↔
        ((∃ entry ∈ img_ext, pyEndswith (pyLower (pyBasename path)) entry = true) ∧
          ∀ sfx, suffix = some sfx →
            pyEndswith (pyLower (pySplitext path).1) sfx = true)) ∧
      ∀ (img_ext : List String) (path entry : String), entry ∈ img_ext →
        pyLower (pySplitext (pyBasename path)).2 = "." ++ entry →
        pyEndswithAny (pyLower (pyBasename path)) img_ext = true := by
  constructor
  · intro img_ext suffix path
    cases suffix with
    | none =>
      show (pyEndswithAny (pyLower (pyBasename path)) img_ext && true) = true ↔ _
      rw [Bool.and_true, pyEndswithAny, List.any_eq_true]
      constructor
      · intro h
        exact ⟨h, by intro sfx hc; exact absurd hc (by simp)⟩
      · intro h
        exact h.1
    | some sfx =>
      show (pyEndswithAny (pyLower (pyBasename path)) img_ext &&
          pyEndswith (pyLower (pySplitext path).1) sfx) = true ↔ _
      rw [Bool.and_eq_true]
      constructor
      · intro h2
        refine ⟨List.any_eq_true.mp h2.1, ?_⟩
        intro s hs
        cases hs
        exact h2.2
      · intro h
        exact ⟨List.any_eq_true.mpr h.1, h.2 sfx rfl⟩
  · intro img_ext path entry hentry hext
    rw [pyEndswithAny, List.any_eq_true]
    refine ⟨entry, hentry, ?_⟩
    rw [pyEndswith, List.isSuffixOf_iff_suffix]
    have hsplit : pyLower (pyBasename path) =
        pyLower (pySplitext (pyBasename path)).1 ++ ("." ++ entry) := by
      rw [← hext, ← pyLower_append, pySplitext_append]
    rw [hsplit]
    have h1 : entry.data <:+ ("." ++ entry).data := by
      show entry.data <:+ ("." : String).data ++ entry.data
      exact List.suffix_append _ _
    have h2 : ("." ++ entry).data <:+
        (pyLower (pySplitext (pyBasename path)).1 ++ ("." ++ entry)).data := by
      show ("." ++ entry).data <:+
        (pyLower (pySplitext (pyBasename path)).1).data ++ ("." ++ entry).data
      exact List.suffix_append _ _
    exact h1.trans h2

/-- Witness for C9: the allow-listed extension tif makes the filename test of
the build filter succeed on the path /d/a.tif. -/
theorem c9_kept_file_amended_witness :
    ("tif" ∈ ["jp2", "tif"]) ∧
      pyEndswithAny (pyLower (pyBasename "/d/a.tif")) ["jp2", "tif"] = true :=
  ⟨by decide, c9_kept_file_amended.2 ["jp2", "tif"] "/d/a.tif" "tif" (by decide) (by decide)⟩

/-! ### C10: color-table lookups of the visualizer -/

theorem pdUniqueAux_mem {alpha : Type} [DecidableEq alpha] (a : alpha) :
    ∀ (l : List alpha) (seen : List alpha),
      a ∈ pdUniqueAux seen l ↔ a ∈ l ∧ ¬ a ∈ seen := by
  intro l
  induction l with
  | nil => intro seen; simp [pdUniqueAux]
  | cons x rest ih =>
    intro seen
    by_cases hx : x ∈ seen
    · rw [pdUniqueAux, if_pos hx, ih]
      constructor
      · rintro ⟨h1, h2⟩
        exact ⟨List.mem_cons_of_mem x h1, h2⟩
      · rintro ⟨h1, h2⟩
        rcases List.mem_cons.mp h1 with h | h
        · subst h
          exact absurd hx h2
        · exact ⟨h, h2⟩
    · rw [pdUniqueAux, if_neg hx]
      constructor
      · intro h
        rcases List.mem_cons.mp h with h | h
        · subst h
          exact ⟨List.mem_cons_self a rest, hx⟩
        · have h2 := (ih (x :: seen)).mp h
          exact ⟨List.mem_cons_of_mem x h2.1,
            fun hc => h2.2 (List.mem_cons_of_mem x hc)⟩
      · rintro ⟨h1, h2⟩
        rcases List.mem_cons.mp h1 with h | h
        · subst h
          exact List.mem_cons_self a _
        · by_cases hax : a = x
          · subst hax
            exact List.mem_cons_self a _
          · refine List.mem_cons_of_mem x ((ih (x :: seen)).mpr ⟨h, ?_⟩)
            intro hc
            rcases List.mem_cons.mp hc with h3 | h3
            · exact hax h3
            · exact h2 h3

theorem pdUnique_mem {alpha : Type} [DecidableEq alpha] (a : alpha) (l : List alpha) :
    a ∈ pdUnique l ↔ a ∈ l := by
  rw [pdUnique, pdUniqueAux_mem]
  simp

theorem legendGo_ok_iff : ∀ ks : List String,
    (∃ v, legendGo ks = Except.ok v) ↔ ∀ k ∈ ks, (lookupColor k).isSome = true := by
  intro ks
  induction ks with
  | nil => simp [legendGo]
  | cons k rest ih =>
    rcases hk : lookupColor k with _ | c
    · simp only [legendGo, hk]
      constructor
      · rintro ⟨v, hv⟩
        cases hv
      · intro h
        have h2 := h k (List.mem_cons_self _ _)
        rw [hk] at h2
        simp at h2
    · simp only [legendGo, hk]
      rcases hrest : legendGo rest with e | tail
      · constructor
        · rintro ⟨v, hv⟩
          cases hv
        · intro h
          obtain ⟨v, hv⟩ := ih.mpr (fun x hx => h x (List.mem_cons_of_mem _ hx))
          rw [hrest] at hv
          cases hv
      · constructor
        · intro _
          intro x hx
          rcases List.mem_cons.mp hx with h | h
          · subst h
            rw [hk]
            rfl
          · exact (ih.mp ⟨tail, hrest⟩) x h
        · intro _
          exact ⟨(c, k) :: tail, rfl⟩

theorem visGo_ok_iff {G : Type} (gdf : List (SceneRec G)) : ∀ ks : List String,
    (∃ v, visGo gdf ks = Except.ok v) ↔ ∀ k ∈ ks, (lookupColor k).isSome = true := by
  intro ks
  induction ks with
  | nil => simp [visGo]
  | cons k rest ih =>
    rcases hk : lookupColor k with _ | c
    · simp only [visGo, hk]
      constructor
      · rintro ⟨v, hv⟩
        cases hv
      · intro h
        have h2 := h k (List.mem_cons_self _ _)
        rw [hk] at h2
        simp at h2
    · simp only [visGo, hk]
      rcases hrest : visGo gdf rest with e | tail
      · constructor
        · rintro ⟨v, hv⟩
          cases hv
        · intro h
          obtain ⟨v, hv⟩ := ih.mpr (fun x hx => h x (List.mem_cons_of_mem _ hx))
          rw [hrest] at hv
          cases hv
      · constructor
        · intro _
          intro x hx
          rcases List.mem_cons.mp hx with h | h
          · subst h
            rw [hk]
            rfl
          · exact (ih.mp ⟨tail, hrest⟩) x h
        · intro _
          exact ⟨_, rfl⟩

/-- C10: vis_on_map and get_legend succeed exactly when every satellite name
of the catalog is a key of the fixed color table; any record whose sat_name
is missing from the table, such as UNKNOWN, makes both fail with the
key-lookup error instead of rendering. -/
theorem c10_visualizer_color_keys {G : Type} (gdf : List (SceneRec G)) :
    ((∃ v, vis_on_map gdf = Except.ok v) ↔
        ∀ r ∈ gdf, (lookupColor r.sat_name).isSome = true) ∧
      ((∃ v, get_legend gdf = Except.ok v) ↔
        ∀ r ∈ gdf, (lookupColor r.sat_name).isSome = true) ∧
      lookupColor "UNKNOWN" = none := by
  have hkeys : (∀ k ∈ pdUnique (gdf.map SceneRec.sat_name), (lookupColor k).isSome = true) ↔
      ∀ r ∈ gdf, (lookupColor r.sat_name).isSome = true := by
    constructor
    · intro h r hr
      exact h r.sat_name ((pdUnique_mem _ _).mpr (List.mem_map.mpr ⟨r, hr, rfl⟩))
    · intro h k hk
      obtain ⟨r, hr, rfl⟩ := List.mem_map.mp ((pdUnique_mem _ _).mp hk)
      exact h r hr
  have hleg : (∃ v, get_legend gdf = Except.ok v) ↔
      ∀ r ∈ gdf, (lookupColor r.sat_name).isSome = true := by
    rw [get_legend]
    rw [legendGo_ok_iff]
    exact hkeys
  refine ⟨?_, hleg, rfl⟩
  rw [← hkeys]
  rw [vis_on_map.eq_def]
  rcases h1 : visGo gdf (pdUnique (gdf.map SceneRec.sat_name)) with e | polys
  · constructor
    · rintro ⟨v, hv⟩
      cases hv
    · intro h
      obtain ⟨v, hv⟩ := (visGo_ok_iff gdf _).mpr h
      rw [h1] at hv
      cases hv
  · rcases h2 : get_legend gdf with e2 | lg
    · constructor
      · rintro ⟨v, hv⟩
        cases hv
      · intro h
        obtain ⟨v, hv⟩ := hleg.mpr (hkeys.mp h)
        rw [h2] at hv
        cases hv
    · constructor
      · intro _
        exact (visGo_ok_iff gdf _).mp ⟨polys, h1⟩
      · intro _
        exact ⟨(polys, lg), rfl⟩

/-! ### Partition lemmas for the stratified partitioner -/

theorem pdUniqueAux_nodup {alpha : Type} [DecidableEq alpha] :
    ∀ (l : List alpha) (seen : List alpha), (pdUniqueAux seen l).Nodup := by
  intro l
  induction l with
  | nil => intro seen; simp [pdUniqueAux]
  | cons x rest ih =>
    intro seen
    by_cases hx : x ∈ seen
    · rw [pdUniqueAux, if_pos hx]
      exact ih seen
    · rw [pdUniqueAux, if_neg hx]
      refine List.nodup_cons.mpr ⟨?_, ih (x :: seen)⟩
      intro hc
      exact ((pdUniqueAux_mem x rest (x :: seen)).mp hc).2 (List.mem_cons_self x seen)

theorem pdUnique_nodup {alpha : Type} [DecidableEq alpha] (l : List alpha) :
    (pdUnique l).Nodup := pdUniqueAux_nodup l []

theorem flatMap_congr_mem {A B : Type} :
    ∀ (l : List A) (f g : A → List B), (∀ a ∈ l, f a = g a) → l.flatMap f = l.flatMap g := by
  intro l
  induction l with
  | nil => intro f g _; rfl
  | cons x rest ih =>
    intro f g h
    simp only [List.flatMap_cons]
    rw [h x (List.mem_cons_self x rest), ih f g (fun a ha => h a (List.mem_cons_of_mem x ha))]

theorem flatMap_perm_mem {A B : Type} :
    ∀ (l : List A) (f g : A → List B), (∀ a ∈ l, List.Perm (f a) (g a)) →
      List.Perm (l.flatMap f) (l.flatMap g) := by
  intro l
  induction l with
  | nil => intro f g _; simp
  | cons x rest ih =>
    intro f g h
    simp only [List.flatMap_cons]
    exact (h x (List.mem_cons_self x rest)).append
      (ih f g (fun a ha => h a (List.mem_cons_of_mem x ha)))

theorem flatten_flatMap {A B : Type} :
    ∀ (l : List A) (f : A → List (List B)),
      (l.flatMap f).flatten = l.flatMap (fun a => (f a).flatten) := by
  intro l
  induction l with
  | nil => intro f; rfl
  | cons x rest ih =>
    intro f
    simp only [List.flatMap_cons, List.flatten_append]
    rw [ih]

/-- Distinct keys with every row keyed into the list: concatenating the
per-key filters permutes the original rows. -/
theorem flatMap_filter_key_perm {R K : Type} [DecidableEq K] (key : R → K) :
    ∀ (ks : List K) (l : List R), ks.Nodup → (∀ r ∈ l, key r ∈ ks) →
      List.Perm (ks.flatMap (fun k => l.filter (fun r => key r = k))) l := by
  intro ks
  induction ks with
  | nil =>
    intro l _ hall
    have hl : l = [] := by
      cases l with
      | nil => rfl
      | cons a as => exact absurd (hall a (List.mem_cons_self a as)) (List.not_mem_nil _)
    subst hl
    simp
  | cons k rest ih =>
    intro l hnd hall
    have hknotin : k ∉ rest := (List.nodup_cons.mp hnd).1
    have hndr : rest.Nodup := (List.nodup_cons.mp hnd).2
    simp only [List.flatMap_cons]
    have hcongr : rest.flatMap (fun k2 => l.filter (fun r => key r = k2)) =
        rest.flatMap (fun k2 =>
          (l.filter (fun r => !(decide (key r = k)))).filter (fun r => key r = k2)) := by
      apply flatMap_congr_mem
      intro k2 hk2
      have hk2ne : k2 ≠ k := fun hc => hknotin (hc ▸ hk2)
      rw [List.filter_filter]
      apply List.filter_congr
      intro r _
      by_cases hr : key r = k2
      · have hrk : ¬ key r = k := fun hc => hk2ne (hr ▸ hc ▸ rfl)
        simp [hr, hrk, hk2ne]
      · simp [hr]
    rw [hcongr]
    have hperm2 : List.Perm
        (rest.flatMap (fun k2 =>
          (l.filter (fun r => !(decide (key r = k)))).filter (fun r => key r = k2)))
        (l.filter (fun r => !(decide (key r = k)))) := by
      apply ih
      · exact hndr
      · intro r hr
        have hr2 := List.mem_filter.mp hr
        have hkey := hall r hr2.1
        rcases List.mem_cons.mp hkey with h | h
        · exfalso
          have := hr2.2
          rw [h] at this
          simp at this
        · exact h
    exact List.Perm.trans (hperm2.append_left (l.filter (fun r => key r = k)))
      (List.filter_append_perm (fun r => decide (key r = k)) l)

/-- The nested region and sat_name grouping covers the catalog exactly: the
concatenation of all groups is a permutation of the catalog rows. -/
theorem regionSatGroups_flatten_perm {G : Type} (gdf : List (SceneRec G)) :
    List.Perm (regionSatGroups gdf).flatten gdf := by
  rw [regionSatGroups]
  rw [flatten_flatMap]
  have hinner : ∀ rg ∈ pdUnique (gdf.map SceneRec.region),
      List.Perm
        (((pdUnique ((gdf.filter (fun r => r.region = rg)).map SceneRec.sat_name)).map
          (fun sn => (gdf.filter (fun r => r.region = rg)).filter
            (fun r => r.sat_name = sn))).flatten)
        (gdf.filter (fun r => r.region = rg)) := by
    intro rg _
    have hflat : ((pdUnique ((gdf.filter (fun r => r.region = rg)).map
        SceneRec.sat_name)).map
          (fun sn => (gdf.filter (fun r => r.region = rg)).filter
            (fun r => r.sat_name = sn))).flatten =
        (pdUnique ((gdf.filter (fun r => r.region = rg)).map SceneRec.sat_name)).flatMap
          (fun sn => (gdf.filter (fun r => r.region = rg)).filter
            (fun r => r.sat_name = sn)) := by
      simp [List.flatMap]
    rw [hflat]
    apply flatMap_filter_key_perm SceneRec.sat_name
    · exact pdUnique_nodup _
    · intro r hr
      exact (pdUnique_mem _ _).mpr (List.mem_map.mpr ⟨r, hr, rfl⟩)
  have houter : List.Perm
      ((pdUnique (gdf.map SceneRec.region)).flatMap
        (fun rg => gdf.filter (fun r => r.region = rg))) gdf := by
    apply flatMap_filter_key_perm SceneRec.region
    · exact pdUnique_nodup _
    · intro r hr
      exact (pdUnique_mem _ _).mpr (List.mem_map.mpr ⟨r, hr, rfl⟩)
  exact List.Perm.trans (flatMap_perm_mem _ _ _ hinner) houter

theorem pyTake_append_pyDrop {alpha : Type} (n : Int) (l : List alpha) :
    pyTake n l ++ pyDrop n l = l := by
  rw [pyTake, pyDrop]
  by_cases h : 0 ≤ n
  · rw [if_pos h, if_pos h]
    exact List.take_append_drop _ l
  · rw [if_neg h, if_neg h]
    exact List.take_append_drop _ l

theorem count_append_swap {alpha : Type} [DecidableEq alpha] (a : alpha) (l₁ l₂ : List alpha) :
    (l₁ ++ l₂).count a = (l₂ ++ l₁).count a := by
  rw [List.count_append, List.count_append, Nat.add_comm]

/-- The one-step unfolding of the train-and-test fold. -/
theorem splitTTGo_cons {sigma : Type} (seed : Nat → sigma)
    (shuf : List String → sigma → List String × sigma) (frac : ℚ)
    (g : List String) (gs : List (List String)) (acc : List String × List String × sigma) :
    splitTTGo seed shuf frac (g :: gs) acc =
      splitTTGo seed shuf frac gs
        (acc.1 ++ pyDrop (pyRound (((shuf g (seed 42)).1.length : ℚ) * frac))
            (shuf g (seed 42)).1,
          acc.2.1 ++ pyTake (pyRound (((shuf g (seed 42)).1.length : ℚ) * frac))
            (shuf g (seed 42)).1,
          (shuf g (seed 42)).2) := rfl

/-- The accumulating fold of split_train_and_test equals the per-group slices
concatenated in group order, independently of the incoming generator state. -/
theorem splitTTGo_spec {sigma : Type} (seed : Nat → sigma)
    (shuf : List String → sigma → List String × sigma) (frac : ℚ) :
    ∀ (gs : List (List String)) (a b : List String) (s : sigma),
      (splitTTGo seed shuf frac gs (a, b, s)).1 =
        a ++ gs.flatMap (fun g =>
          pyDrop (pyRound (((shuf g (seed 42)).1.length : ℚ) * frac)) (shuf g (seed 42)).1) ∧
      (splitTTGo seed shuf frac gs (a, b, s)).2.1 =
        b ++ gs.flatMap (fun g =>
          pyTake (pyRound (((shuf g (seed 42)).1.length : ℚ) * frac)) (shuf g (seed 42)).1) := by
  intro gs
  induction gs with
  | nil => intro a b s; simp [splitTTGo]
  | cons g gs ih =>
    intro a b s
    rw [splitTTGo_cons]
    obtain ⟨ih1, ih2⟩ := ih
      (a ++ pyDrop (pyRound (((shuf g (seed 42)).1.length : ℚ) * frac)) (shuf g (seed 42)).1)
      (b ++ pyTake (pyRound (((shuf g (seed 42)).1.length : ℚ) * frac)) (shuf g (seed 42)).1)
      ((shuf g (seed 42)).2)
    constructor
    · rw [ih1, List.flatMap_cons, List.append_assoc]
    · rw [ih2, List.flatMap_cons, List.append_assoc]

/-- The two halves produced by split_train_and_test, in closed form. -/
theorem split_train_and_test_spec {sigma G : Type} (seed : Nat → sigma)
    (shuf : List String → sigma → List String × sigma) (gdf : List (SceneRec G))
    (frac : ℚ) (s0 : sigma) :
    (split_train_and_test seed shuf gdf frac s0).1 =
      ((regionSatGroups gdf).map (List.map SceneRec.name)).flatMap (fun g =>
        pyDrop (pyRound (((shuf g (seed 42)).1.length : ℚ) * frac)) (shuf g (seed 42)).1) ∧
    (split_train_and_test seed shuf gdf frac s0).2 =
      ((regionSatGroups gdf).map (List.map SceneRec.name)).flatMap (fun g =>
        pyTake (pyRound (((shuf g (seed 42)).1.length : ℚ) * frac)) (shuf g (seed 42)).1) := by
  obtain ⟨h1, h2⟩ := splitTTGo_spec seed shuf frac
    ((regionSatGroups gdf).map (List.map SceneRec.name)) [] [] s0
  rw [List.nil_append] at h1 h2
  exact ⟨h1, h2⟩

theorem count_flatMap_pair (nm : String) (F H : List String → List String) :
    ∀ (gs : List (List String)), (∀ g ∈ gs, ((F g).count nm) + ((H g).count nm) = g.count nm) →
      (gs.flatMap F).count nm + (gs.flatMap H).count nm = gs.flatten.count nm := by
  intro gs
  induction gs with
  | nil => intro _; rfl
  | cons g gs ih =>
    intro h
    simp only [List.flatMap_cons, List.flatten_cons, List.count_append]
    have hg := h g (List.mem_cons_self g gs)
    have hrest := ih (fun x hx => h x (List.mem_cons_of_mem g hx))
    omega

/-- C5 (amended): split_train_and_test partitions each (region, sat_name)
group after the seeded shuffle, sending exactly the first round(size times
frac) names of the group to the test list and the rest to the train list,
concatenated in group order; the two lists together contain each record name
exactly as often as it occurs in the catalog, and a name occurring at most
once in the catalog is never in both halves (a name duplicated inside one
group can land in both). -/
theorem c5_split_train_test_amended {sigma G : Type} (seed : Nat → sigma)
    (shuf : List String → sigma → List String × sigma)
    (hshuf : ∀ (l : List String) (s : sigma), List.Perm (shuf l s).1 l)
    (gdf : List (SceneRec G)) (frac : ℚ) (s0 : sigma) :
    ((split_train_and_test seed shuf gdf frac s0).1 =
        ((regionSatGroups gdf).map (List.map SceneRec.name)).flatMap (fun g =>
          pyDrop (pyRound (((shuf g (seed 42)).1.length : ℚ) * frac))
            (shuf g (seed 42)).1) ∧
      (split_train_and_test seed shuf gdf frac s0).2 =
        ((regionSatGroups gdf).map (List.map SceneRec.name)).flatMap (fun g =>
          pyTake (pyRound (((shuf g (seed 42)).1.length : ℚ) * frac))
            (shuf g (seed 42)).1)) ∧
      (∀ nm, ((split_train_and_test seed shuf gdf frac s0).1 ++
          (split_train_and_test seed shuf gdf frac s0).2).count nm =
        (gdf.map SceneRec.name).count nm) ∧
      ∀ nm, (gdf.map SceneRec.name).count nm ≤ 1 →
        ¬ (nm ∈ (split_train_and_test seed shuf gdf frac s0).1 ∧
            nm ∈ (split_train_and_test seed shuf gdf frac s0).2) := by
  obtain ⟨h1, h2⟩ := split_train_and_test_spec seed shuf gdf frac s0
  have hcount : ∀ nm, ((split_train_and_test seed shuf gdf frac s0).1 ++
      (split_train_and_test seed shuf gdf frac s0).2).count nm =
      (gdf.map SceneRec.name).count nm := by
    intro nm
    rw [List.count_append, h1, h2]
    have hpair := count_flatMap_pair nm
      (fun g => pyDrop (pyRound (((shuf g (seed 42)).1.length : ℚ) * frac))
        (shuf g (seed 42)).1)
      (fun g => pyTake (pyRound (((shuf g (seed 42)).1.length : ℚ) * frac))
        (shuf g (seed 42)).1)
      ((regionSatGroups gdf).map (List.map SceneRec.name))
      (by
        intro g _
        have hperm := hshuf g (seed 42)
        rw [← hperm.count_eq nm]
        rw [← List.count_append]
        rw [count_append_swap]
        rw [pyTake_append_pyDrop])
    rw [hpair]
    have hflat : ((regionSatGroups gdf).map (List.map SceneRec.name)).flatten =
        ((regionSatGroups gdf).flatten).map SceneRec.name :=
      (List.map_flatten SceneRec.name (regionSatGroups gdf)).symm
    rw [hflat]
    exact ((regionSatGroups_flatten_perm gdf).map SceneRec.name).count_eq nm
  refine ⟨⟨h1, h2⟩, hcount, ?_⟩
  intro nm hle ⟨htr, hte⟩
  have hc1 : (split_train_and_test seed shuf gdf frac s0).1.count nm ≠ 0 :=
    fun hc => (List.count_eq_zero.mp hc) htr
  have hc2 : (split_train_and_test seed shuf gdf frac s0).2.count nm ≠ 0 :=
    fun hc => (List.count_eq_zero.mp hc) hte
  have := hcount nm
  rw [List.count_append] at this
  omega

/-- C5 counterexample: the claim that no name ends up in both halves fails on
the two-row catalog recA, recB whose shared name a is duplicated inside one
(region, sat_name) group: with ratio one half, one occurrence goes to test
and the other to train, for any permutation-producing shuffle, e.g. the
identity one. -/
theorem c5_counterexample :
    ¬ (∀ (sigma G : Type) (seed : Nat → sigma)
        (shuf : List String → sigma → List String × sigma),
        (∀ (l : List String) (s : sigma), List.Perm (shuf l s).1 l) →
        ∀ (gdf : List (SceneRec G)) (frac : ℚ) (s0 : sigma) (nm : String),
          ¬ (nm ∈ (split_train_and_test seed shuf gdf frac s0).1 ∧
              nm ∈ (split_train_and_test seed shuf gdf frac s0).2)) := by
  intro h
  have h2 := h Unit Unit (fun _ => ()) (fun l _ => (l, ()))
    (fun l _ => List.Perm.refl l) [recA, recB] (1/2) () "a"
  apply h2
  have hspec := split_train_and_test_spec (fun _ : Nat => ()) (fun l (_ : Unit) => (l, ()))
    ([recA, recB] : List (SceneRec Unit)) (1/2) ()
  have hgs : ((regionSatGroups ([recA, recB] : List (SceneRec Unit))).map
      (List.map SceneRec.name)) = [["a", "a"]] := by decide
  rw [hgs] at hspec
  have hround : pyRound (((["a", "a"] : List String).length : ℚ) * (1 / 2)) = 1 := by
    have hq : (((["a", "a"] : List String).length : ℚ) * (1 / 2)) = 1 := by
      norm_num
    rw [hq, pyRound]
    norm_num
  constructor
  · rw [hspec.1]
    simp only [List.flatMap_cons, List.flatMap_nil, List.append_nil]
    rw [hround]
    decide
  · rw [hspec.2]
    simp only [List.flatMap_cons, List.flatMap_nil, List.append_nil]
    rw [hround]
    decide

/-- Witness for the amended C5 at the concrete duplicated catalog with the
identity shuffle. -/
theorem c5_split_train_test_amended_witness :
    ((split_train_and_test (fun _ : Nat => ()) (fun l (_ : Unit) => (l, ()))
        [recA, recB] (1/2) ()).1 ++
      (split_train_and_test (fun _ : Nat => ()) (fun l (_ : Unit) => (l, ()))
        [recA, recB] (1/2) ()).2).count "a" =
      (([recA, recB].map SceneRec.name).count "a") :=
  (c5_split_train_test_amended (fun _ => ()) (fun l _ => (l, ()))
    (fun l _ => List.Perm.refl l) [recA, recB] (1/2) ()).2.1 "a"

theorem pdUniqueAux_nil_of_seen {alpha : Type} [DecidableEq alpha] :
    ∀ (l seen : List alpha), (∀ a ∈ l, a ∈ seen) → pdUniqueAux seen l = [] := by
  intro l
  induction l with
  | nil => intro seen _; rfl
  | cons x rest ih =>
    intro seen h
    rw [pdUniqueAux, if_pos (h x (List.mem_cons_self x rest))]
    exact ih seen (fun a ha => h a (List.mem_cons_of_mem x ha))

theorem pdUnique_const {alpha : Type} [DecidableEq alpha] (c : alpha) :
    ∀ l : List alpha, l ≠ [] → (∀ a ∈ l, a = c) → pdUnique l = [c] := by
  intro l hne hall
  cases l with
  | nil => exact absurd rfl hne
  | cons x rest =>
    have hx : x = c := hall x (List.mem_cons_self x rest)
    subst hx
    rw [pdUnique, pdUniqueAux, if_neg (List.not_mem_nil x)]
    rw [pdUniqueAux_nil_of_seen rest [x] (fun a ha => by
      rw [hall a (List.mem_cons_of_mem x ha), ← hall x (List.mem_cons_self x rest)]
      exact List.mem_cons_self x [])]

/-- A nonempty catalog whose rows all share one region and one sat_name forms
a single partitioner group, the whole catalog. -/
theorem regionSatGroups_single {G : Type} (gdf : List (SceneRec G)) (R S : String)
    (hne : gdf ≠ []) (hconst : ∀ r ∈ gdf, r.region = R ∧ r.sat_name = S) :
    regionSatGroups gdf = [gdf] := by
  have hmapne : gdf.map SceneRec.region ≠ [] := by
    intro hc
    exact hne (List.map_eq_nil_iff.mp hc)
  have hreg : pdUnique (gdf.map SceneRec.region) = [R] := by
    apply pdUnique_const R _ hmapne
    intro a ha
    obtain ⟨r, hr, rfl⟩ := List.mem_map.mp ha
    exact (hconst r hr).1
  have hfilter : gdf.filter (fun r => r.region = R) = gdf :=
    List.filter_eq_self.mpr (fun r hr => by simp [(hconst r hr).1])
  have hmapne2 : gdf.map SceneRec.sat_name ≠ [] := by
    intro hc
    exact hne (List.map_eq_nil_iff.mp hc)
  have hsat : pdUnique (gdf.map SceneRec.sat_name) = [S] := by
    apply pdUnique_const S _ hmapne2
    intro a ha
    obtain ⟨r, hr, rfl⟩ := List.mem_map.mp ha
    exact (hconst r hr).2
  simp only [regionSatGroups, hreg, List.flatMap_cons, List.flatMap_nil, List.append_nil]
  rw [hfilter, hsat]
  simp only [List.map_cons, List.map_nil]
  rw [List.filter_eq_self.mpr (fun r hr => by simp [(hconst r hr).2])]

theorem pyRound_ten_fifth : pyRound ((10 : ℚ) * (0.2 : ℚ)) = 2 := by
  have hq : (10 : ℚ) * (0.2 : ℚ) = 2 := by norm_num
  have hfl : Int.floor (2 : ℚ) = 2 := by norm_num
  rw [hq, pyRound, hfl]
  norm_num

/-- C6: split_train_and_test is deterministic: because the generator is
reseeded with the fixed constant 42 before every group shuffle, the result
does not depend on the incoming generator state, so two runs over the same
catalog agree; and on a catalog forming one group of 10 names with ratio
0.2, the test half has exactly round(10 times 0.2) = 2 names. -/
theorem c6_split_deterministic {sigma G : Type} (seed : Nat → sigma)
    (shuf : List String → sigma → List String × sigma)
    (hshuf : ∀ (l : List String) (s : sigma), List.Perm (shuf l s).1 l)
    (gdf : List (SceneRec G)) (frac : ℚ) (s0 s1 : sigma) :
    split_train_and_test seed shuf gdf frac s0 = split_train_and_test seed shuf gdf frac s1 ∧
      (∀ R S : String, (∀ r ∈ gdf, r.region = R ∧ r.sat_name = S) → gdf.length = 10 →
        (split_train_and_test seed shuf gdf (0.2 : ℚ) s0).2.length = 2) ∧
      pyRound ((10 : ℚ) * (0.2 : ℚ)) = 2 := by
  refine ⟨?_, ?_, pyRound_ten_fifth⟩
  · have ha := split_train_and_test_spec seed shuf gdf frac s0
    have hb := split_train_and_test_spec seed shuf gdf frac s1
    exact Prod.ext (ha.1.trans hb.1.symm) (ha.2.trans hb.2.symm)
  · intro R S hconst hlen
    have hne : gdf ≠ [] := by
      intro hc
      rw [hc] at hlen
      simp at hlen
    have hgroups := regionSatGroups_single gdf R S hne hconst
    have hspec := (split_train_and_test_spec seed shuf gdf (0.2 : ℚ) s0).2
    rw [hgroups] at hspec
    simp only [List.map_cons, List.map_nil, List.flatMap_cons, List.flatMap_nil,
      List.append_nil] at hspec
    have hlen2 : (shuf (gdf.map SceneRec.name) (seed 42)).1.length = 10 := by
      rw [(hshuf _ _).length_eq, List.length_map, hlen]
    rw [hspec, hlen2]
    rw [show ((10 : ℕ) : ℚ) = (10 : ℚ) by norm_num]
    rw [pyRound_ten_fifth]
    rw [pyTake, if_pos (by decide : (0 : Int) ≤ 2)]
    rw [List.length_take, hlen2]
    decide

/-- One row of the ten-name single-group catalog used as C6 witness input. -/
def mkGroupRec (nm : String) : SceneRec Unit :=
  ⟨"WV3", nm, nm, ".tif", false, (), "r1", false⟩

/-- A catalog of ten rows in one (region, sat_name) group. -/
def gdf10 : List (SceneRec Unit) :=
  [mkGroupRec "n0", mkGroupRec "n1", mkGroupRec "n2", mkGroupRec "n3", mkGroupRec "n4",
   mkGroupRec "n5", mkGroupRec "n6", mkGroupRec "n7", mkGroupRec "n8", mkGroupRec "n9"]

/-- Witness for C6 at the ten-name single-group catalog with the identity
shuffle. -/
theorem c6_split_deterministic_witness :
    (∀ r ∈ gdf10, r.region = "r1" ∧ r.sat_name = "WV3") ∧ gdf10.length = 10 ∧
      (split_train_and_test (fun _ : Nat => ()) (fun l (_ : Unit) => (l, ()))
        gdf10 (0.2 : ℚ) ()).2.length = 2 :=
  ⟨by decide, by decide,
    (c6_split_deterministic (fun _ => ()) (fun l _ => (l, ()))
      (fun l _ => List.Perm.refl l) gdf10 (0.2 : ℚ) () ()).2.1 "r1" "WV3"
      (by decide) (by decide)⟩

/-! ### C8: array_split chunking -/

theorem chunksBySizes_length {alpha : Type} :
    ∀ (ss : List Nat) (l : List alpha), (chunksBySizes l ss).length = ss.length := by
  intro ss
  induction ss with
  | nil => intro l; rfl
  | cons s ss ih =>
    intro l
    show (l.take s :: chunksBySizes (l.drop s) ss).length = ss.length + 1
    rw [List.length_cons, ih]

theorem arraySplitSizes_length (L n : Nat) (hn : 1 ≤ n) :
    (arraySplitSizes L n).length = n := by
  rw [arraySplitSizes, List.length_append, List.length_replicate, List.length_replicate]
  have := Nat.mod_lt L (show 0 < n by omega)
  omega

theorem arraySplitSizes_sum (L n : Nat) (hn : 1 ≤ n) :
    (arraySplitSizes L n).sum = L := by
  rw [arraySplitSizes, List.sum_append]
  have h1 : (List.replicate (L % n) (L / n + 1)).sum = (L % n) * (L / n + 1) := by
    simp [List.sum_replicate, smul_eq_mul]
  have h2 : (List.replicate (n - L % n) (L / n)).sum = (n - L % n) * (L / n) := by
    simp [List.sum_replicate, smul_eq_mul]
  rw [h1, h2]
  have hmod := Nat.mod_lt L (show 0 < n by omega)
  have hdm := Nat.div_add_mod L n
  rw [Nat.mul_add, Nat.mul_one, Nat.sub_mul]
  have hle : (L % n) * (L / n) ≤ n * (L / n) := Nat.mul_le_mul_right _ (le_of_lt hmod)
  omega

theorem chunksBySizes_flatten {alpha : Type} :
    ∀ (ss : List Nat) (l : List alpha), ss.sum = l.length →
      (chunksBySizes l ss).flatten = l := by
  intro ss
  induction ss with
  | nil =>
    intro l h
    rw [List.sum_nil] at h
    have hl : l = [] := List.eq_nil_of_length_eq_zero h.symm
    subst hl
    rfl
  | cons s ss ih =>
    intro l h
    rw [List.sum_cons] at h
    show (l.take s :: chunksBySizes (l.drop s) ss).flatten = l
    rw [List.flatten_cons]
    rw [ih (l.drop s) (by rw [List.length_drop]; omega)]
    exact List.take_append_drop s l

theorem chunksBySizes_lengths {alpha : Type} :
    ∀ (ss : List Nat) (l : List alpha), ss.sum = l.length →
      (chunksBySizes l ss).map List.length = ss := by
  intro ss
  induction ss with
  | nil => intro l _; rfl
  | cons s ss ih =>
    intro l h
    rw [List.sum_cons] at h
    show (l.take s :: chunksBySizes (l.drop s) ss).map List.length = s :: ss
    rw [List.map_cons, List.length_take, ih (l.drop s) (by rw [List.length_drop]; omega)]
    congr 1
    omega

theorem arraySplitSizes_mem (L n s : Nat) (h : s ∈ arraySplitSizes L n) :
    s = L / n ∨ s = L / n + 1 := by
  rw [arraySplitSizes] at h
  rcases List.mem_append.mp h with h | h
  · exact Or.inr (List.eq_of_mem_replicate h)
  · exact Or.inl (List.eq_of_mem_replicate h)

theorem zip_getD {A B : Type} (da : A) (db : B) :
    ∀ (xs : List A) (ys : List B) (i : Nat), i < xs.length → i < ys.length →
      (xs.zip ys).getD i (da, db) = (xs.getD i da, ys.getD i db) := by
  intro xs
  induction xs with
  | nil =>
    intro ys i h _
    simp at h
  | cons x xs ih =>
    intro ys i h1 h2
    cases ys with
    | nil => simp at h2
    | cons y ys =>
      cases i with
      | zero => rfl
      | succ i =>
        exact ih ys i (Nat.lt_of_succ_lt_succ h1) (Nat.lt_of_succ_lt_succ h2)

/-- The one-step unfolding of the split_n fold. -/
theorem splitNGo_cons {sigma : Type} (seed : Nat → sigma)
    (shuf : List String → sigma → List String × sigma) (n : Nat) (dst_paths : List String)
    (g : List String) (gs : List (List String))
    (acc : List (List String × String) × sigma) :
    splitNGo seed shuf n dst_paths (g :: gs) acc =
      splitNGo seed shuf n dst_paths gs
        (acc.1 ++ (array_split (shuf g (seed 42)).1 n).zip dst_paths,
          (shuf g (seed 42)).2) := rfl

/-- The accumulating fold of split_n equals the per-group chunk-destination
pairs concatenated in group order, independently of the generator state. -/
theorem splitNGo_spec {sigma : Type} (seed : Nat → sigma)
    (shuf : List String → sigma → List String × sigma) (n : Nat) (dst_paths : List String) :
    ∀ (gs : List (List String)) (a : List (List String × String)) (s : sigma),
      (splitNGo seed shuf n dst_paths gs (a, s)).1 =
        a ++ gs.flatMap (fun g => (array_split (shuf g (seed 42)).1 n).zip dst_paths) := by
  intro gs
  induction gs with
  | nil => intro a s; simp [splitNGo]
  | cons g gs ih =>
    intro a s
    rw [splitNGo_cons]
    rw [ih (a ++ (array_split (shuf g (seed 42)).1 n).zip dst_paths) ((shuf g (seed 42)).2)]
    rw [List.flatMap_cons, List.append_assoc]

/-- The split_n transfer plan in closed form. -/
theorem split_n_plan_spec {sigma G : Type} (seed : Nat → sigma)
    (shuf : List String → sigma → List String × sigma) (gdf : List (SceneRec G))
    (n : Nat) (dst_paths : List String) (s0 : sigma) :
    split_n_plan seed shuf gdf n dst_paths s0 =
      ((regionSatGroups gdf).map (List.map SceneRec.absname)).flatMap (fun g =>
        (array_split (shuf g (seed 42)).1 n).zip dst_paths) := by
  rw [split_n_plan, splitNGo_spec, List.nil_append]

/-- C8: for n at least 1, split_n splits each (region, sat_name) group into
exactly n contiguous chunks of its shuffled path list: the chunks
concatenate back to the shuffled list, their sizes sum to the group size and
pairwise differ by at most 1, and chunk i is paired with destination i; the
computed plan is the concatenation of these pairs over the groups. -/
theorem c8_split_n {sigma G : Type} (seed : Nat → sigma)
    (shuf : List String → sigma → List String × sigma)
    (hshuf : ∀ (l : List String) (s : sigma), List.Perm (shuf l s).1 l)
    (gdf : List (SceneRec G)) (n : Nat) (dst_paths : List String) (s0 : sigma)
    (hn : 1 ≤ n) :
    split_n_plan seed shuf gdf n dst_paths s0 =
      ((regionSatGroups gdf).map (List.map SceneRec.absname)).flatMap (fun g =>
        (array_split (shuf g (seed 42)).1 n).zip dst_paths) ∧
    ∀ g ∈ regionSatGroups gdf,
      (array_split (shuf (g.map SceneRec.absname) (seed 42)).1 n).length = n ∧
      (array_split (shuf (g.map SceneRec.absname) (seed 42)).1 n).flatten =
        (shuf (g.map SceneRec.absname) (seed 42)).1 ∧
      ((array_split (shuf (g.map SceneRec.absname) (seed 42)).1 n).map List.length).sum =
        g.length ∧
      (∀ c1 ∈ array_split (shuf (g.map SceneRec.absname) (seed 42)).1 n,
        ∀ c2 ∈ array_split (shuf (g.map SceneRec.absname) (seed 42)).1 n,
          c1.length ≤ c2.length + 1) ∧
      ∀ i : Nat, i < n → i < dst_paths.length →
        ((array_split (shuf (g.map SceneRec.absname) (seed 42)).1 n).zip dst_paths).getD i
            ([], "") =
          ((array_split (shuf (g.map SceneRec.absname) (seed 42)).1 n).getD i [],
            dst_paths.getD i "") := by
  refine ⟨split_n_plan_spec seed shuf gdf n dst_paths s0, ?_⟩
  intro g _
  have hlen : (shuf (g.map SceneRec.absname) (seed 42)).1.length = g.length := by
    rw [(hshuf _ _).length_eq, List.length_map]
  have hsum : (arraySplitSizes (shuf (g.map SceneRec.absname) (seed 42)).1.length n).sum =
      (shuf (g.map SceneRec.absname) (seed 42)).1.length :=
    arraySplitSizes_sum _ n hn
  have hchlen : (array_split (shuf (g.map SceneRec.absname) (seed 42)).1 n).length = n := by
    rw [array_split, chunksBySizes_length, arraySplitSizes_length _ n hn]
  have hlengths : (array_split (shuf (g.map SceneRec.absname) (seed 42)).1 n).map
      List.length = arraySplitSizes (shuf (g.map SceneRec.absname) (seed 42)).1.length n := by
    rw [array_split]
    exact chunksBySizes_lengths _ _ hsum
  refine ⟨hchlen, ?_, ?_, ?_, ?_⟩
  · rw [array_split]
    exact chunksBySizes_flatten _ _ hsum
  · rw [hlengths, hsum, hlen]
  · intro c1 hc1 c2 hc2
    have h1 : c1.length ∈ arraySplitSizes (shuf (g.map SceneRec.absname) (seed 42)).1.length
        n := by
      rw [← hlengths]
      exact List.mem_map_of_mem List.length hc1
    have h2 : c2.length ∈ arraySplitSizes (shuf (g.map SceneRec.absname) (seed 42)).1.length
        n := by
      rw [← hlengths]
      exact List.mem_map_of_mem List.length hc2
    rcases arraySplitSizes_mem _ _ _ h1 with h1 | h1 <;>
      rcases arraySplitSizes_mem _ _ _ h2 with h2 | h2 <;> omega
  · intro i hin hid
    exact zip_getD [] "" _ dst_paths i (by rw [hchlen]; exact hin) hid

/-- Witness for C8 at the ten-row single-group catalog split three ways with
the identity shuffle. -/
theorem c8_split_n_witness :
    (array_split (gdf10.map SceneRec.absname) 3).length = 3 ∧
      ((array_split (gdf10.map SceneRec.absname) 3).map List.length).sum = gdf10.length := by
  have h := (c8_split_n (fun _ : Nat => ()) (fun l (_ : Unit) => (l, ()))
    (fun l _ => List.Perm.refl l) gdf10 3 ["d0", "d1", "d2"] () (by decide)).2 gdf10
    (by decide)
  exact ⟨h.1, h.2.2.1⟩
